import Mathlib

/-!
# Verification of the teaching-preferences template generator

Shallow embedding of the core data transformations of `src/templateGenerator.ts`
(time formatting, schedule aggregation, slot ordering, grid sizing, the
array-building phase of `updateWorksheet`, and the validation sequence of `main`).

JavaScript-specific behaviour is modelled explicitly:
* `Number(s)` on a non-numeric string yields `NaN`; we model numeric values that
  may be `NaN` as `Option Int` (with `none` for `NaN`).  The model covers the
  integer-literal strings the program actually produces; other JS `Number`
  forms (decimals, whitespace, hex) do not occur in this code's data flow.
* JS `%` is a truncating remainder (`Int.tmod`).
* `Math.max()` of an empty spread is `-Infinity`; we model the result of
  `Math.max` over a list of naturals as `Option Nat` with `none` for `-Infinity`.
* A JS object with string keys enumerates in insertion order; we model such an
  object as an association list with unique keys, where assignment to an
  existing key keeps its position and assignment to a fresh key appends.
* `Array.prototype.sort` is stable (ECMAScript 2019); we model it as a stable
  insertion sort driven by the source's comparator: each element is placed
  before the first already-placed element it does not strictly follow, so
  elements that compare equal keep their original relative order.
* Indexing past the end of an array yields `undefined`; we model a possibly
  missing location as `Option String`.
-/

/-- Digit value of a character, `none` if not a decimal digit. -/
def charDigit (c : Char) : Option Nat :=
  if '0' ≤ c ∧ c ≤ '9' then some (c.toNat - '0'.toNat) else none

/-- Value of a list of decimal digits; `none` (JS `NaN`) if any character is
not a digit.  The empty list yields `some 0`, matching `Number('') = 0`. -/
def digitsVal (l : List Char) : Option Nat :=
  l.foldl (fun acc c =>
    match acc, charDigit c with
    | some a, some d => some (a * 10 + d)
    | _, _ => none) (some 0)

/-- JS `Number(s)` restricted to integer literals: optional leading minus sign
followed by decimal digits; `none` models `NaN`.  `Number('') = 0`. -/
def jsNumber (s : String) : Option Int :=
  match s.data with
  | [] => some 0
  | '-' :: rest =>
    if rest.isEmpty then none
    else (digitsVal rest).map (fun n => -(n : Int))
  | l => (digitsVal l).map (fun n => (n : Int))

/-- Split a list of characters at every occurrence of `c`
(JS `String.prototype.split` with a single-character separator). -/
def splitChars (c : Char) : List Char → List (List Char)
  | [] => [[]]
  | a :: rest =>
    match splitChars c rest with
    | [] => [[a]]
    | s :: ss => if a = c then [] :: s :: ss else (a :: s) :: ss

/-- JS `s.split(c)` for a single-character separator `c`. -/
def jsSplit (s : String) (c : Char) : List String :=
  (splitChars c s.data).map String.mk

/-- JS `s.endsWith(t)`. -/
def jsEndsWith (s t : String) : Bool :=
  t.data.isSuffixOf s.data

/-- JS `s.slice(0, -2)`: drop the last two characters. -/
def jsDropLast2 (s : String) : String :=
  String.mk (s.data.take (s.data.length - 2))

/-- The 12-hour label template of `convertTo12HourFormat` (line 23 of
`templateGenerator.ts`): `` `${hours % 12 || 12}${hours >= 12 ? 'pm' : 'am'}` ``.
For `NaN` hours (`none`), JS prints `12am`: `NaN % 12` is `NaN`, which is falsy
(so `|| 12` yields `12`), and `NaN >= 12` is false. -/
def hourLabel : Option Int → String
  | none => "12am"
  | some h =>
    (if Int.tmod h 12 = 0 then "12" else toString (Int.tmod h 12)) ++
      (if 12 ≤ h then "pm" else "am")

/-- Function `convertTo12HourFormat` (lines 18–24): split on `':'`, take the numeric
value of the first piece, and render the 12-hour label. -/
def convertTo12HourFormat (time24 : String) : String :=
  hourLabel (jsNumber ((jsSplit time24 ':').getD 0 ""))

/-- Function `parseHour` (lines 31–38): strip a two-character suffix, parse the rest as
a number, and undo the 12-hour convention.  A `NaN` hour propagates to a `NaN`
result (`none`): `NaN !== 12` is true, so the `pm` branch computes
`(NaN + 12) % 24 = NaN`, and otherwise `NaN` itself is returned. -/
def parseHour (time : String) : Option Int :=
  match jsNumber (jsDropLast2 time) with
  | none => none
  | some hour =>
    if (jsEndsWith time "pm" ∧ hour ≠ 12) ∨ (jsEndsWith time "am" ∧ hour = 12) then
      some (Int.tmod (hour + 12) 24)
    else
      some hour

/-- C1: For every integer `h` with `0 ≤ h ≤ 23`, parsing the 12-hour label
produced for `h` returns `h` again: the Time Formatter's two conversions are
mutual inverses over the domain `0..23`.  Both the label built directly from
the hour (`hourLabel (some h)`) and the label produced by
`convertTo12HourFormat` on the `"H:00"` time string round-trip through
`parseHour`. -/
theorem parseHour_hourLabel_roundtrip (h : Int) (h0 : 0 ≤ h) (h23 : h ≤ 23) :
    parseHour (hourLabel (some h)) = some h ∧
      parseHour (convertTo12HourFormat (toString h ++ ":00")) = some h := by
  interval_cases h <;> exact ⟨by decide, by decide⟩

/-- Witness for C1 at `h = 14` (`"2pm"`). -/
theorem parseHour_hourLabel_roundtrip_witness :
    (0 ≤ (14 : Int) ∧ (14 : Int) ≤ 23) ∧
      parseHour (hourLabel (some 14)) = some 14 :=
  ⟨by decide, (parseHour_hourLabel_roundtrip 14 (by decide) (by decide)).1⟩

/-- Per-slot occurrence counts, the value type of the `Combinations`
interface (lines 1–6). -/
structure SlotCounts where
  inPerson : Nat
  online : Nat
deriving DecidableEq, Repr

/-- A `Combinations` object: a string-keyed JS object modelled as an
insertion-ordered association list with unique keys. -/
abbrev Combinations := List (String × SlotCounts)

/-- JS property read `combinations[key]`: `none` models `undefined`. -/
def objGet : Combinations → String → Option SlotCounts
  | [], _ => none
  | (k', v) :: m, k => if k' = k then some v else objGet m k

/-- Reading `combinations[key]` with the `|| {'in-person': 0, 'online': 0}`
default (line 60). -/
def lookupOr (m : Combinations) (k : String) : SlotCounts :=
  (objGet m k).getD ⟨0, 0⟩

/-- JS object assignment `combinations[key] = v`: an existing key keeps its
position, a fresh key is appended. -/
def objSet : Combinations → String → SlotCounts → Combinations
  | [], k, v => [(k, v)]
  | (k', v') :: m, k, v =>
    if k' = k then (k', v) :: m else (k', v') :: objSet m k v

/-- The slot key built at line 59:
`` `${day} ${convertTo12HourFormat(begin)} - ${convertTo12HourFormat(end)}` ``
with `[day, begin, , end]` destructured from `classTimes[i].split(' ')`
(tokens 0, 1 and 3).  A time string with fewer than four tokens makes the JS
code throw a `TypeError` inside `convertTo12HourFormat`; the claims only
concern well-formed rows, for which the `getD` defaults are never used. -/
def rowKey (time : String) : String :=
  let tokens := jsSplit time ' '
  tokens.getD 0 "" ++ " " ++ convertTo12HourFormat (tokens.getD 1 "") ++ " - " ++
    convertTo12HourFormat (tokens.getD 3 "")

/-- One iteration of the aggregation loop (lines 55–66).  `loc` is
`classLocations[i]`, which is `undefined` (`none`) when `i` is past the end of
the location list; `undefined === 'Online (ONLINE)'` is false, so such rows
count as in-person. -/
def processRow (m : Combinations) (time : String) (loc : Option String) : Combinations :=
  let key := rowKey time
  let c := lookupOr m key
  if loc = some "Online (ONLINE)" then
    objSet m key ⟨c.inPerson, c.online + 1⟩
  else
    objSet m key ⟨c.inPerson + 1, c.online⟩

/-- The aggregation loop `for (let i = 0; i < classTimes.length; i++)`:
one step per time entry, consuming the location list positionally
(`ls.head?` is `classLocations[i]`, absent entries read as `undefined`). -/
def processGo : Combinations → List String → List String → Combinations
  | m, [], _ => m
  | m, t :: ts, ls => processGo (processRow m t ls.head?) ts ls.tail

/-- Function `processClassSchedules` (lines 49–69), starting from the two string lists
the worksheet ranges produce. -/
def processClassSchedules (classTimes classLocations : List String) : Combinations :=
  processGo [] classTimes classLocations


theorem objGet_objSet_self (m : Combinations) (k : String) (v : SlotCounts) :
    objGet (objSet m k v) k = some v := by
  induction m with
  | nil => simp [objSet, objGet]
  | cons p m ih =>
    obtain ⟨k', v'⟩ := p
    by_cases h : k' = k
    · simp [objSet, objGet, h]
    · simp [objSet, objGet, h, ih]

theorem objGet_objSet_ne (m : Combinations) (k : String) (v : SlotCounts)
    (k' : String) (h : k' ≠ k) : objGet (objSet m k v) k' = objGet m k' := by
  induction m with
  | nil =>
    have hne : ¬ (k = k') := fun e => h e.symm
    simp [objSet, objGet, hne]
  | cons p m ih =>
    obtain ⟨k₀, v₀⟩ := p
    by_cases h₀ : k₀ = k
    · subst h₀
      have hne : ¬ (k₀ = k') := fun e => h e.symm
      simp [objSet, objGet, hne]
    · simp [objSet, objGet, h₀, ih]

theorem lookupOr_objSet_self (m : Combinations) (k : String) (v : SlotCounts) :
    lookupOr (objSet m k v) k = v := by
  rw [lookupOr, objGet_objSet_self]
  rfl

theorem lookupOr_objSet_ne (m : Combinations) (k : String) (v : SlotCounts)
    (k' : String) (h : k' ≠ k) : lookupOr (objSet m k v) k' = lookupOr m k' := by
  rw [lookupOr, objGet_objSet_ne m k v k' h, lookupOr]

theorem mem_keys_objSet (m : Combinations) (k : String) (v : SlotCounts) (k' : String) :
    k' ∈ (objSet m k v).map Prod.fst ↔ k' ∈ m.map Prod.fst ∨ k' = k := by
  induction m with
  | nil => simp [objSet]
  | cons p m ih =>
    obtain ⟨k₀, v₀⟩ := p
    by_cases h₀ : k₀ = k
    · subst h₀
      simp [objSet]
      tauto
    · simp [objSet, h₀, ih]
      tauto

theorem nodup_keys_objSet (m : Combinations) (k : String) (v : SlotCounts)
    (h : (m.map Prod.fst).Nodup) : ((objSet m k v).map Prod.fst).Nodup := by
  induction m with
  | nil => simp [objSet]
  | cons p m ih =>
    obtain ⟨k₀, v₀⟩ := p
    simp only [List.map_cons, List.nodup_cons] at h
    by_cases h₀ : k₀ = k
    · subst h₀
      have he : objSet ((k₀, v₀) :: m) k₀ v = (k₀, v) :: m := by simp [objSet]
      rw [he]
      simp only [List.map_cons, List.nodup_cons]
      exact h
    · have he : objSet ((k₀, v₀) :: m) k v = (k₀, v₀) :: objSet m k v := by
        simp [objSet, h₀]
      rw [he]
      simp only [List.map_cons, List.nodup_cons]
      refine ⟨fun hmem => ?_, ih h.2⟩
      rcases (mem_keys_objSet m k v k₀).mp hmem with hm | he'
      · exact h.1 hm
      · exact h₀ he'

theorem objGet_eq_none_iff (m : Combinations) (k : String) :
    objGet m k = none ↔ k ∉ m.map Prod.fst := by
  induction m with
  | nil => simp [objGet]
  | cons p m ih =>
    obtain ⟨k₀, v₀⟩ := p
    by_cases h₀ : k₀ = k
    · subst h₀
      simp [objGet]
    · have he : objGet ((k₀, v₀) :: m) k = objGet m k := by simp [objGet, h₀]
      rw [he, ih]
      simp only [List.map_cons, List.mem_cons]
      constructor
      · intro hnm hor
        rcases hor with he' | hm
        · exact h₀ he'.symm
        · exact hnm hm
      · intro hn hm
        exact hn (Or.inr hm)

theorem mem_iff_objGet (m : Combinations) (k : String) (v : SlotCounts)
    (hnd : (m.map Prod.fst).Nodup) : (k, v) ∈ m ↔ objGet m k = some v := by
  induction m with
  | nil => simp [objGet]
  | cons p m ih =>
    obtain ⟨k₀, v₀⟩ := p
    simp only [List.map_cons, List.nodup_cons] at hnd
    by_cases h₀ : k₀ = k
    · subst h₀
      have he : objGet ((k₀, v₀) :: m) k₀ = some v₀ := by simp [objGet]
      rw [he]
      simp only [List.mem_cons, Prod.mk.injEq, Option.some.injEq]
      constructor
      · rintro (⟨-, rfl⟩ | hm)
        · rfl
        · exact absurd (List.mem_map.mpr ⟨(k₀, v), hm, rfl⟩) hnd.1
      · rintro rfl
        exact Or.inl (by simp)
    · have he : objGet ((k₀, v₀) :: m) k = objGet m k := by simp [objGet, h₀]
      rw [he, ← ih hnd.2]
      simp only [List.mem_cons, Prod.mk.injEq]
      constructor
      · rintro (⟨he', -⟩ | hm)
        · exact absurd he'.symm h₀
        · exact hm
      · exact Or.inr

theorem processRow_eq_online (m : Combinations) (time : String) :
    processRow m time (some "Online (ONLINE)") =
      objSet m (rowKey time)
        ⟨(lookupOr m (rowKey time)).inPerson, (lookupOr m (rowKey time)).online + 1⟩ := by
  simp [processRow]

theorem processRow_eq_inperson (m : Combinations) (time loc : String)
    (h : loc ≠ "Online (ONLINE)") :
    processRow m time (some loc) =
      objSet m (rowKey time)
        ⟨(lookupOr m (rowKey time)).inPerson + 1, (lookupOr m (rowKey time)).online⟩ := by
  have h' : ¬ (some loc = some "Online (ONLINE)") := fun he => h (Option.some.inj he)
  simp [processRow, h']

theorem processRow_eq_undef (m : Combinations) (time : String) :
    processRow m time none =
      objSet m (rowKey time)
        ⟨(lookupOr m (rowKey time)).inPerson + 1, (lookupOr m (rowKey time)).online⟩ := by
  simp [processRow]

/-- C4: during aggregation a row is counted as online iff its location string
equals the exact sentinel `"Online (ONLINE)"`; every other location value
increments the in-person counter of the row's slot key instead, and no other
key of the map changes. -/
theorem processRow_classification :
    ∀ (m : Combinations) (time loc : String),
      (lookupOr (processRow m time (some loc)) (rowKey time)).online =
          (lookupOr m (rowKey time)).online +
            (if loc = "Online (ONLINE)" then 1 else 0) ∧
      (lookupOr (processRow m time (some loc)) (rowKey time)).inPerson =
          (lookupOr m (rowKey time)).inPerson +
            (if loc = "Online (ONLINE)" then 0 else 1) ∧
      (∀ k, k ≠ rowKey time →
        lookupOr (processRow m time (some loc)) k = lookupOr m k) := by
  intro m time loc
  by_cases h : loc = "Online (ONLINE)"
  · subst h
    rw [processRow_eq_online]
    refine ⟨?_, ?_, fun k hk => lookupOr_objSet_ne _ _ _ _ hk⟩
    · rw [lookupOr_objSet_self]
      simp
    · rw [lookupOr_objSet_self]
      simp
  · rw [processRow_eq_inperson m time loc h]
    refine ⟨?_, ?_, fun k hk => lookupOr_objSet_ne _ _ _ _ hk⟩
    · rw [lookupOr_objSet_self]
      simp [h]
    · rw [lookupOr_objSet_self]
      simp [h]

/-- Witness for C4: an online row at the example key, and an untouched other key. -/
theorem processRow_classification_witness :
    (lookupOr (processRow [] "Mon 09:00 - 11:00" (some "Online (ONLINE)"))
        (rowKey "Mon 09:00 - 11:00")).online =
      (lookupOr ([] : Combinations) (rowKey "Mon 09:00 - 11:00")).online + 1 ∧
    lookupOr (processRow [] "Mon 09:00 - 11:00" (some "Room 101")) "Tue 9am - 11am" =
      lookupOr ([] : Combinations) "Tue 9am - 11am" := by
  constructor
  · have h := (processRow_classification [] "Mon 09:00 - 11:00" "Online (ONLINE)").1
    simpa using h
  · exact (processRow_classification [] "Mon 09:00 - 11:00" "Room 101").2.2
      "Tue 9am - 11am" (by decide)

/-- C5: aggregating exactly the two rows `("Mon 09:00 - 11:00", "Online (ONLINE)")`
and `("Mon 09:00 - 11:00", "Room 101")` yields exactly the map
`{"Mon 9am - 11am": {inPerson: 1, online: 1}}`, and each row's key is
`"{day} {begin} - {end}"` where `begin`/`end` are the 12-hour labels of
tokens 1 and 3 of the space-split time description. -/
theorem processClassSchedules_example :
    processClassSchedules ["Mon 09:00 - 11:00", "Mon 09:00 - 11:00"]
        ["Online (ONLINE)", "Room 101"] =
      [("Mon 9am - 11am", ⟨1, 1⟩)] ∧
    (∀ t day b sep e, jsSplit t ' ' = [day, b, sep, e] →
      rowKey t = day ++ " " ++ convertTo12HourFormat b ++ " - " ++
        convertTo12HourFormat e) := by
  constructor
  · decide
  · intro t day b sep e h
    simp [rowKey, h]

/-- Witness for C5's key-shape clause at the example row. -/
theorem processClassSchedules_example_witness :
    jsSplit "Mon 09:00 - 11:00" ' ' = ["Mon", "09:00", "-", "11:00"] ∧
      rowKey "Mon 09:00 - 11:00" = "Mon" ++ " " ++ convertTo12HourFormat "09:00" ++
        " - " ++ convertTo12HourFormat "11:00" :=
  ⟨by decide, processClassSchedules_example.2 "Mon 09:00 - 11:00" "Mon" "09:00" "-"
    "11:00" (by decide)⟩

/-- The rows visited by the aggregation loop: `classTimes[i]` paired with
`classLocations[i]` (which is `undefined`/`none` past the end). -/
def rowsOf : List String → List String → List (String × Option String)
  | [], _ => []
  | t :: ts, ls => (t, ls.head?) :: rowsOf ts ls.tail

/-- The aggregation loop as a fold over its visited rows. -/
def foldRows (m : Combinations) (rows : List (String × Option String)) : Combinations :=
  rows.foldl (fun m r => processRow m r.1 r.2) m

/-- A row matching key `k` and counted as in-person. -/
def rowInP (k : String) (r : String × Option String) : Bool :=
  (rowKey r.1 == k) && !(r.2 == some "Online (ONLINE)")

/-- A row matching key `k` and counted as online. -/
def rowOnl (k : String) (r : String × Option String) : Bool :=
  (rowKey r.1 == k) && (r.2 == some "Online (ONLINE)")

theorem processGo_eq_foldRows : ∀ (ts ls : List String) (m : Combinations),
    processGo m ts ls = foldRows m (rowsOf ts ls) := by
  intro ts
  induction ts with
  | nil => intro ls m; rfl
  | cons t ts ih =>
    intro ls m
    show processGo (processRow m t ls.head?) ts ls.tail = _
    rw [ih ls.tail (processRow m t ls.head?)]
    rfl

theorem rowsOf_eq_zip : ∀ (ts ls : List String), ts.length = ls.length →
    rowsOf ts ls = ts.zip (ls.map some) := by
  intro ts
  induction ts with
  | nil => intro ls h; rfl
  | cons t ts ih =>
    intro ls h
    cases ls with
    | nil => simp at h
    | cons l ls =>
      simp only [List.length_cons, Nat.add_right_cancel_iff] at h
      show (t, some l) :: rowsOf ts ls = _
      rw [ih ls h]
      rfl

theorem lookupOr_processRow (m : Combinations) (t : String) (loc : Option String)
    (k : String) :
    lookupOr (processRow m t loc) k =
      if rowKey t = k then
        (if loc = some "Online (ONLINE)" then
          ⟨(lookupOr m k).inPerson, (lookupOr m k).online + 1⟩
        else
          ⟨(lookupOr m k).inPerson + 1, (lookupOr m k).online⟩)
      else lookupOr m k := by
  by_cases hk : rowKey t = k
  · subst hk
    by_cases hl : loc = some "Online (ONLINE)"
    · subst hl
      rw [processRow_eq_online, lookupOr_objSet_self]
      simp
    · cases loc with
      | none => rw [processRow_eq_undef, lookupOr_objSet_self]; simp [hl]
      | some l =>
        have hl' : l ≠ "Online (ONLINE)" := fun e => hl (by rw [e])
        rw [processRow_eq_inperson m t l hl', lookupOr_objSet_self]
        simp [hl]
  · rw [if_neg hk]
    have hk' : k ≠ rowKey t := fun e => hk e.symm
    by_cases hl : loc = some "Online (ONLINE)"
    · subst hl
      rw [processRow_eq_online, lookupOr_objSet_ne _ _ _ _ hk']
    · cases loc with
      | none => rw [processRow_eq_undef, lookupOr_objSet_ne _ _ _ _ hk']
      | some l =>
        have hl' : l ≠ "Online (ONLINE)" := fun e => hl (by rw [e])
        rw [processRow_eq_inperson m t l hl', lookupOr_objSet_ne _ _ _ _ hk']

theorem foldRows_lookupOr : ∀ (rows : List (String × Option String))
    (m : Combinations) (k : String),
    lookupOr (foldRows m rows) k =
      ⟨(lookupOr m k).inPerson + rows.countP (rowInP k),
        (lookupOr m k).online + rows.countP (rowOnl k)⟩ := by
  intro rows
  induction rows with
  | nil => intro m k; simp [foldRows]
  | cons r rows ih =>
    intro m k
    obtain ⟨t, loc⟩ := r
    show lookupOr (foldRows (processRow m t loc) rows) k = _
    rw [ih (processRow m t loc) k, lookupOr_processRow]
    by_cases hk : rowKey t = k
    · by_cases hl : loc = some "Online (ONLINE)"
      · simp [hk, hl, rowInP, rowOnl, List.countP_cons]
        omega
      · simp [hk, hl, rowInP, rowOnl, List.countP_cons]
        omega
    · simp [hk, rowInP, rowOnl, List.countP_cons]

theorem mem_keys_processRow (m : Combinations) (t : String) (loc : Option String)
    (k : String) :
    k ∈ (processRow m t loc).map Prod.fst ↔ k ∈ m.map Prod.fst ∨ k = rowKey t := by
  by_cases hl : loc = some "Online (ONLINE)"
  · subst hl; rw [processRow_eq_online]; exact mem_keys_objSet _ _ _ _
  · cases loc with
    | none => rw [processRow_eq_undef]; exact mem_keys_objSet _ _ _ _
    | some l =>
      have hl' : l ≠ "Online (ONLINE)" := fun e => hl (by rw [e])
      rw [processRow_eq_inperson m t l hl']
      exact mem_keys_objSet _ _ _ _

theorem mem_keys_foldRows : ∀ (rows : List (String × Option String))
    (m : Combinations) (k : String),
    k ∈ (foldRows m rows).map Prod.fst ↔
      k ∈ m.map Prod.fst ∨ ∃ r ∈ rows, rowKey r.1 = k := by
  intro rows
  induction rows with
  | nil => intro m k; simp [foldRows]
  | cons r rows ih =>
    intro m k
    obtain ⟨t, loc⟩ := r
    show k ∈ (foldRows (processRow m t loc) rows).map Prod.fst ↔ _
    rw [ih (processRow m t loc) k]
    rw [mem_keys_processRow]
    constructor
    · rintro ((hm | he) | ⟨r, hr, hk⟩)
      · exact Or.inl hm
      · exact Or.inr ⟨(t, loc), List.mem_cons_self _ _, he.symm⟩
      · exact Or.inr ⟨r, List.mem_cons_of_mem _ hr, hk⟩
    · rintro (hm | ⟨r, hr, hk⟩)
      · exact Or.inl (Or.inl hm)
      · rcases List.mem_cons.mp hr with rfl | hr'
        · exact Or.inl (Or.inr hk.symm)
        · exact Or.inr ⟨r, hr', hk⟩

theorem nodup_keys_processRow (m : Combinations) (t : String) (loc : Option String)
    (h : (m.map Prod.fst).Nodup) : ((processRow m t loc).map Prod.fst).Nodup := by
  by_cases hl : loc = some "Online (ONLINE)"
  · subst hl; rw [processRow_eq_online]; exact nodup_keys_objSet _ _ _ h
  · cases loc with
    | none => rw [processRow_eq_undef]; exact nodup_keys_objSet _ _ _ h
    | some l =>
      have hl' : l ≠ "Online (ONLINE)" := fun e => hl (by rw [e])
      rw [processRow_eq_inperson m t l hl']
      exact nodup_keys_objSet _ _ _ h

theorem nodup_keys_foldRows : ∀ (rows : List (String × Option String))
    (m : Combinations), (m.map Prod.fst).Nodup →
    ((foldRows m rows).map Prod.fst).Nodup := by
  intro rows
  induction rows with
  | nil => intro m h; exact h
  | cons r rows ih =>
    intro m h
    exact ih (processRow m r.1 r.2) (nodup_keys_processRow m r.1 r.2 h)

theorem objGet_eq_some_lookupOr (m : Combinations) (k : String)
    (h : k ∈ m.map Prod.fst) : objGet m k = some (lookupOr m k) := by
  cases he : objGet m k with
  | none => exact absurd ((objGet_eq_none_iff m k).mp he) (by simp [h])
  | some v => rw [lookupOr, he]; rfl

/-- Counterexample to C7: `processClassSchedules` contains no length check and
no throw statement at all.  With three time descriptions and only two
locations it returns an ordinary `Combinations` map — the third row's location
reads as `undefined`, which is not the online sentinel, so that row is counted
in-person. -/
theorem processClassSchedules_shape_mismatch_returns_map :
    processClassSchedules
        ["Mon 09:00 - 11:00", "Tue 10:00 - 12:00", "Wed 13:00 - 14:00"]
        ["Online (ONLINE)", "Room 101"] =
      [("Mon 9am - 11am", ⟨0, 1⟩), ("Tue 10am - 12pm", ⟨1, 0⟩),
        ("Wed 1pm - 2pm", ⟨1, 0⟩)] := by
  decide

theorem processGo_take : ∀ (ts ls : List String) (m : Combinations),
    processGo m ts ls = processGo m ts (ls.take ts.length) := by
  intro ts
  induction ts with
  | nil => intro ls m; rfl
  | cons t ts ih =>
    intro ls m
    cases ls with
    | nil =>
      show processGo (processRow m t none) ts [] = processGo (processRow m t none) ts []
      rfl
    | cons l ls =>
      show processGo (processRow m t (some l)) ts ls =
        processGo (processRow m t (some l)) ts (ls.take ts.length)
      exact ih ls (processRow m t (some l))

theorem processGo_nil_locations_online_zero :
    ∀ (ts : List String) (m : Combinations),
      (∀ k, (lookupOr m k).online = 0) →
      ∀ k, (lookupOr (processGo m ts []) k).online = 0 := by
  intro ts
  induction ts with
  | nil => intro m h k; exact h k
  | cons t ts ih =>
    intro m h k
    show (lookupOr (processGo (processRow m t none) ts []) k).online = 0
    refine ih (processRow m t none) (fun k' => ?_) k
    rw [processRow_eq_undef]
    by_cases hk : k' = rowKey t
    · subst hk
      rw [lookupOr_objSet_self]
      exact h (rowKey t)
    · rw [lookupOr_objSet_ne _ _ _ _ hk]
      exact h k'

/-- Amended C7: the aggregator never fails on a length mismatch.  It iterates
over the time-description list only: locations beyond that length are ignored,
and rows whose index is beyond the location list are classified in-person
(their location reads as `undefined`, which differs from the online sentinel),
so a `Combinations` map is always returned. -/
theorem processClassSchedules_no_length_check :
    (∀ ts ls, processClassSchedules ts ls =
      processClassSchedules ts (ls.take ts.length)) ∧
    (∀ ts k, (lookupOr (processClassSchedules ts []) k).online = 0) := by
  constructor
  · intro ts ls
    exact processGo_take ts ls []
  · intro ts k
    exact processGo_nil_locations_online_zero ts []
      (fun k' => by simp [lookupOr, objGet]) k

/-- C6: aggregation is permutation-invariant.  For equal-length inputs, any
permutation applied identically to both sequences (stated as a permutation of
the zipped row lists) yields a final map with the same key-to-counts entries:
every JS property read `objGet` agrees, and the two maps hold exactly the same
(key, counts) pairs. -/
theorem processClassSchedules_perm_invariant :
    ∀ (ts ls ts' ls' : List String),
      ts.length = ls.length → ts'.length = ls'.length →
      (ts.zip ls).Perm (ts'.zip ls') →
      (∀ k, objGet (processClassSchedules ts ls) k =
        objGet (processClassSchedules ts' ls') k) ∧
      (∀ p, p ∈ processClassSchedules ts ls ↔ p ∈ processClassSchedules ts' ls') := by
  intro ts ls ts' ls' h1 h2 hperm
  have hrows : (rowsOf ts ls).Perm (rowsOf ts' ls') := by
    rw [rowsOf_eq_zip ts ls h1, rowsOf_eq_zip ts' ls' h2]
    rw [List.zip_map_right, List.zip_map_right]
    exact hperm.map _
  have hP1 : processClassSchedules ts ls = foldRows [] (rowsOf ts ls) :=
    processGo_eq_foldRows ts ls []
  have hP2 : processClassSchedules ts' ls' = foldRows [] (rowsOf ts' ls') :=
    processGo_eq_foldRows ts' ls' []
  have hmem : ∀ k, k ∈ (processClassSchedules ts ls).map Prod.fst ↔
      k ∈ (processClassSchedules ts' ls').map Prod.fst := by
    intro k
    rw [hP1, hP2, mem_keys_foldRows, mem_keys_foldRows]
    constructor
    · rintro (hm | ⟨r, hr, hk⟩)
      · simp at hm
      · exact Or.inr ⟨r, hrows.mem_iff.mp hr, hk⟩
    · rintro (hm | ⟨r, hr, hk⟩)
      · simp at hm
      · exact Or.inr ⟨r, hrows.mem_iff.mpr hr, hk⟩
  have hcnt : ∀ k, lookupOr (processClassSchedules ts ls) k =
      lookupOr (processClassSchedules ts' ls') k := by
    intro k
    rw [hP1, hP2, foldRows_lookupOr, foldRows_lookupOr,
      hrows.countP_eq (rowInP k), hrows.countP_eq (rowOnl k)]
  have hget : ∀ k, objGet (processClassSchedules ts ls) k =
      objGet (processClassSchedules ts' ls') k := by
    intro k
    by_cases hk : k ∈ (processClassSchedules ts ls).map Prod.fst
    · rw [objGet_eq_some_lookupOr _ _ hk,
        objGet_eq_some_lookupOr _ _ ((hmem k).mp hk), hcnt k]
    · rw [(objGet_eq_none_iff _ _).mpr hk,
        (objGet_eq_none_iff _ _).mpr (fun hm => hk ((hmem k).mpr hm))]
  refine ⟨hget, fun p => ?_⟩
  have hnd1 : ((processClassSchedules ts ls).map Prod.fst).Nodup := by
    rw [hP1]; exact nodup_keys_foldRows _ [] (by simp)
  have hnd2 : ((processClassSchedules ts' ls').map Prod.fst).Nodup := by
    rw [hP2]; exact nodup_keys_foldRows _ [] (by simp)
  obtain ⟨k, v⟩ := p
  rw [mem_iff_objGet _ _ _ hnd1, mem_iff_objGet _ _ _ hnd2, hget k]

/-- Witness for C6: swapping the two rows of the C5 example leaves the final
map's entries unchanged. -/
theorem processClassSchedules_perm_invariant_witness :
    ((["Mon 09:00 - 11:00", "Tue 10:00 - 12:00"].length =
        ["Online (ONLINE)", "Room 101"].length) ∧
      (["Tue 10:00 - 12:00", "Mon 09:00 - 11:00"].length =
        ["Room 101", "Online (ONLINE)"].length) ∧
      (["Mon 09:00 - 11:00", "Tue 10:00 - 12:00"].zip
          ["Online (ONLINE)", "Room 101"]).Perm
        (["Tue 10:00 - 12:00", "Mon 09:00 - 11:00"].zip
          ["Room 101", "Online (ONLINE)"])) ∧
    objGet (processClassSchedules ["Mon 09:00 - 11:00", "Tue 10:00 - 12:00"]
        ["Online (ONLINE)", "Room 101"]) "Mon 9am - 11am" =
      objGet (processClassSchedules ["Tue 10:00 - 12:00", "Mon 09:00 - 11:00"]
        ["Room 101", "Online (ONLINE)"]) "Mon 9am - 11am" :=
  ⟨⟨by decide, by decide, by decide⟩,
    (processClassSchedules_perm_invariant
      ["Mon 09:00 - 11:00", "Tue 10:00 - 12:00"] ["Online (ONLINE)", "Room 101"]
      ["Tue 10:00 - 12:00", "Mon 09:00 - 11:00"] ["Room 101", "Online (ONLINE)"]
      (by decide) (by decide) (by decide)).1 "Mon 9am - 11am"⟩

/-- The fixed weekday sequence of `orderCombinations` (line 77). -/
def weekdaysOrder : List String := ["Mon", "Tue", "Wed", "Thu", "Fri"]

/-- JS `Array.prototype.indexOf`: first index of `x`, or `-1` if absent. -/
def jsIndexOf : List String → String → Int
  | [], _ => -1
  | a :: l, x =>
    if a = x then 0
    else if jsIndexOf l x = -1 then -1 else jsIndexOf l x + 1

/-- Token 0 of a key split on spaces (`dayA` at line 82). -/
def keyDay (k : String) : String := (jsSplit k ' ').getD 0 ""

/-- Token 1 of a key split on spaces (`timeA` at line 82). -/
def keyTime (k : String) : String := (jsSplit k ' ').getD 1 ""

/-- The comparator of `orderCombinations` (lines 81–92): by weekday index when
the day tokens differ, otherwise by parsed start hour.  `none` models a `NaN`
comparison value (possible only when the hour tokens fail to parse).  A key
with no space has no token 1; the model reads it as an empty token, while JS
would throw only if two such keys shared their day token — impossible for
aggregator-produced keys, which always contain spaces. -/
def cmpKeys (a b : String) : Option Int :=
  if keyDay a ≠ keyDay b then
    some (jsIndexOf weekdaysOrder (keyDay a) - jsIndexOf weekdaysOrder (keyDay b))
  else
    match parseHour (keyTime a), parseHour (keyTime b) with
    | some x, some y => some (x - y)
    | _, _ => none

/-- Whether `a` may stay before `b` in the ECMAScript sort: the comparator value is
non-positive.  A `NaN` comparator value acts as a tie (neither `NaN < 0` nor
`NaN > 0` holds), leaving the relative order unchanged. -/
def keyLe (a b : String) : Bool :=
  match cmpKeys a b with
  | some v => decide (v ≤ 0)
  | none => true

/-- Stable insertion: place `a` before the first element it does not strictly
follow.  Together with `sortKeys` this realizes the unique stable sort that
ECMAScript's `Array.prototype.sort` must produce for this comparator. -/
def insertKey (a : String) : List String → List String
  | [] => [a]
  | b :: l => if keyLe a b then a :: b :: l else b :: insertKey a l

/-- Stable sort of the key list (`Object.keys(combinations).sort(...)`). -/
def sortKeys : List String → List String
  | [] => []
  | a :: l => insertKey a (sortKeys l)

/-- Function `orderCombinations` (lines 76–98): sort the keys, then rebuild the object
by assigning `orderedCombinations[key] = combinations[key]` in sorted order
(each key is fresh in the new object, so assignments append). -/
def orderCombinations (m : Combinations) : Combinations :=
  (sortKeys (m.map Prod.fst)).map (fun k => (k, lookupOr m k))

/-- The weekday index used as primary sort rank. -/
def dayIdx (k : String) : Int := jsIndexOf weekdaysOrder (keyDay k)

/-- The parsed start hour used as secondary sort rank (`0` for unparsable
hours, which `goodKey` rules out). -/
def startHour (k : String) : Int := (parseHour (keyTime k)).getD 0

/-- The ordering the specification prescribes: primary key weekday position,
secondary key parsed start hour, both ascending. -/
def specLe (a b : String) : Prop :=
  dayIdx a < dayIdx b ∨ (dayIdx a = dayIdx b ∧ startHour a ≤ startHour b)

/-- A key whose weekday token is one of the five recognized weekdays and whose
start label parses to an hour. -/
def goodKey (k : String) : Prop :=
  keyDay k ∈ weekdaysOrder ∧ (parseHour (keyTime k)).isSome = true

instance goodKeyDecidable (k : String) : Decidable (goodKey k) :=
  decidable_of_iff (keyDay k ∈ weekdaysOrder ∧ (parseHour (keyTime k)).isSome = true)
    Iff.rfl

theorem jsIndexOf_eq_neg_one (l : List String) (x : String) (h : x ∉ l) :
    jsIndexOf l x = -1 := by
  induction l with
  | nil => rfl
  | cons a l ih =>
    simp only [List.mem_cons] at h
    push_neg at h
    have hne : ¬ (a = x) := fun e => h.1 e.symm
    simp [jsIndexOf, hne, ih h.2]

theorem jsIndexOf_nonneg (l : List String) (x : String) (h : x ∈ l) :
    0 ≤ jsIndexOf l x := by
  induction l with
  | nil => simp at h
  | cons a l ih =>
    by_cases he : a = x
    · simp [jsIndexOf, he]
    · rcases List.mem_cons.mp h with he' | hm
      · exact absurd he'.symm he
      · have h0 := ih hm
        have hne : jsIndexOf l x ≠ -1 := by omega
        simp only [jsIndexOf, if_neg he, if_neg hne]
        omega

theorem weekIdx_injOn : ∀ d ∈ weekdaysOrder, ∀ e ∈ weekdaysOrder,
    d ≠ e → jsIndexOf weekdaysOrder d ≠ jsIndexOf weekdaysOrder e := by
  decide

theorem cmpKeys_of_day_ne (a b : String) (hd : keyDay a ≠ keyDay b) :
    cmpKeys a b = some (dayIdx a - dayIdx b) := by
  simp [cmpKeys, hd, dayIdx]

theorem cmpKeys_of_day_eq (a b : String) (hd : keyDay a = keyDay b)
    (ha : (parseHour (keyTime a)).isSome = true)
    (hb : (parseHour (keyTime b)).isSome = true) :
    cmpKeys a b = some (startHour a - startHour b) := by
  obtain ⟨x, hx⟩ := Option.isSome_iff_exists.mp ha
  obtain ⟨y, hy⟩ := Option.isSome_iff_exists.mp hb
  simp [cmpKeys, hd, hx, hy, startHour]

theorem keyLe_iff_specLe (a b : String) (ha : goodKey a) (hb : goodKey b) :
    keyLe a b = true ↔ specLe a b := by
  by_cases hd : keyDay a = keyDay b
  · have hidx : dayIdx a = dayIdx b := by rw [dayIdx, dayIdx, hd]
    rw [keyLe, cmpKeys_of_day_eq a b hd ha.2 hb.2]
    simp only [decide_eq_true_eq, specLe]
    omega
  · have hidx : dayIdx a ≠ dayIdx b := weekIdx_injOn _ ha.1 _ hb.1 hd
    rw [keyLe, cmpKeys_of_day_ne a b hd]
    simp only [decide_eq_true_eq, specLe]
    omega

theorem rank_lt_of_keyLe_false (a b : String) (ha : goodKey a) (hb : goodKey b)
    (h : keyLe a b = false) :
    dayIdx b < dayIdx a ∨ (dayIdx b = dayIdx a ∧ startHour b < startHour a) := by
  by_cases hd : keyDay a = keyDay b
  · have hidx : dayIdx a = dayIdx b := by rw [dayIdx, dayIdx, hd]
    rw [keyLe, cmpKeys_of_day_eq a b hd ha.2 hb.2] at h
    simp only [decide_eq_false_iff_not, not_le] at h
    omega
  · rw [keyLe, cmpKeys_of_day_ne a b hd] at h
    simp only [decide_eq_false_iff_not, not_le] at h
    omega

theorem specLe_trans : ∀ x y z, specLe x y → specLe y z → specLe x z := by
  intro x y z h1 h2
  rw [specLe] at *
  omega

theorem mem_insertKey (a x : String) (l : List String) :
    x ∈ insertKey a l ↔ x = a ∨ x ∈ l := by
  induction l with
  | nil => simp [insertKey]
  | cons b l ih =>
    cases hle : keyLe a b with
    | true =>
      have he : insertKey a (b :: l) = a :: b :: l := by simp [insertKey, hle]
      rw [he]
      exact List.mem_cons
    | false =>
      have he : insertKey a (b :: l) = b :: insertKey a l := by simp [insertKey, hle]
      rw [he]
      simp only [List.mem_cons, ih]
      tauto

theorem insertKey_perm (a : String) (l : List String) :
    (insertKey a l).Perm (a :: l) := by
  induction l with
  | nil => exact List.Perm.refl _
  | cons b l ih =>
    cases hle : keyLe a b with
    | true =>
      have he : insertKey a (b :: l) = a :: b :: l := by simp [insertKey, hle]
      rw [he]
    | false =>
      have he : insertKey a (b :: l) = b :: insertKey a l := by simp [insertKey, hle]
      rw [he]
      exact (ih.cons b).trans (List.Perm.swap a b l)

theorem sortKeys_perm (l : List String) : (sortKeys l).Perm l := by
  induction l with
  | nil => exact List.Perm.refl _
  | cons a l ih =>
    show (insertKey a (sortKeys l)).Perm (a :: l)
    exact (insertKey_perm a (sortKeys l)).trans (ih.cons a)

theorem pairwise_insertKey {S : String → String → Prop} {P : String → Prop}
    (hS : ∀ x y z, S x y → S y z → S x z)
    (h1 : ∀ x y, P x → P y → keyLe x y = true → S x y)
    (h2 : ∀ x y, P x → P y → keyLe x y = false → S y x) :
    ∀ (l : List String) (a : String), P a → (∀ x ∈ l, P x) → l.Pairwise S →
      (insertKey a l).Pairwise S := by
  intro l
  induction l with
  | nil => intro a _ _ _; simp [insertKey]
  | cons b l ih =>
    intro a hPa hPl hpw
    rw [List.pairwise_cons] at hpw
    have hPb : P b := hPl b (List.mem_cons_self _ _)
    cases hle : keyLe a b with
    | true =>
      have he : insertKey a (b :: l) = a :: b :: l := by simp [insertKey, hle]
      rw [he]
      refine List.Pairwise.cons ?_ (List.Pairwise.cons hpw.1 hpw.2)
      intro z hz
      rcases List.mem_cons.mp hz with rfl | hz'
      · exact h1 a z hPa hPb hle
      · exact hS a b z (h1 a b hPa hPb hle) (hpw.1 z hz')
    | false =>
      have he : insertKey a (b :: l) = b :: insertKey a l := by simp [insertKey, hle]
      rw [he]
      refine List.Pairwise.cons ?_
        (ih a hPa (fun x hx => hPl x (List.mem_cons_of_mem _ hx)) hpw.2)
      intro z hz
      rcases (mem_insertKey a z l).mp hz with rfl | hz'
      · exact h2 z b hPa hPb hle
      · exact hpw.1 z hz'

theorem pairwise_sortKeys {S : String → String → Prop} {P : String → Prop}
    (hS : ∀ x y z, S x y → S y z → S x z)
    (h1 : ∀ x y, P x → P y → keyLe x y = true → S x y)
    (h2 : ∀ x y, P x → P y → keyLe x y = false → S y x) :
    ∀ l : List String, (∀ x ∈ l, P x) → (sortKeys l).Pairwise S := by
  intro l
  induction l with
  | nil => intro _; simp [sortKeys]
  | cons a l ih =>
    intro hPl
    show (insertKey a (sortKeys l)).Pairwise S
    refine pairwise_insertKey hS h1 h2 (sortKeys l) a
      (hPl a (List.mem_cons_self _ _)) (fun x hx => ?_)
      (ih (fun x hx => hPl x (List.mem_cons_of_mem _ hx)))
    exact hPl x (List.mem_cons_of_mem _ ((sortKeys_perm l).mem_iff.mp hx))

theorem filter_insertKey_neg (p : String → Bool) (a : String) (l : List String)
    (ha : p a = false) : (insertKey a l).filter p = l.filter p := by
  induction l with
  | nil => simp [insertKey, ha]
  | cons b l ih =>
    cases hle : keyLe a b with
    | true =>
      have he : insertKey a (b :: l) = a :: b :: l := by simp [insertKey, hle]
      rw [he]
      simp [List.filter_cons, ha]
    | false =>
      have he : insertKey a (b :: l) = b :: insertKey a l := by simp [insertKey, hle]
      rw [he]
      simp [List.filter_cons, ih]

theorem filter_insertKey_pos (p : String → Bool) (a : String) (l : List String)
    (ha : p a = true) (h : ∀ b ∈ l, keyLe a b = false → p b = false) :
    (insertKey a l).filter p = a :: l.filter p := by
  induction l with
  | nil => simp [insertKey, ha]
  | cons b l ih =>
    cases hle : keyLe a b with
    | true =>
      have he : insertKey a (b :: l) = a :: b :: l := by simp [insertKey, hle]
      rw [he]
      simp [List.filter_cons, ha]
    | false =>
      have he : insertKey a (b :: l) = b :: insertKey a l := by simp [insertKey, hle]
      rw [he]
      have hpb : p b = false := h b (List.mem_cons_self _ _) hle
      rw [List.filter_cons, List.filter_cons]
      simp only [hpb, cond_false]
      exact ih (fun b' hb' => h b' (List.mem_cons_of_mem _ hb'))

theorem filter_sortKeys (p : String → Bool) :
    ∀ l : List String,
      (∀ a b, a ∈ l → b ∈ l → p a = true → keyLe a b = false → p b = false) →
      (sortKeys l).filter p = l.filter p := by
  intro l
  induction l with
  | nil => intro _; rfl
  | cons a l ih =>
    intro hcl
    show (insertKey a (sortKeys l)).filter p = _
    have hsub : ∀ x ∈ sortKeys l, x ∈ a :: l :=
      fun x hx => List.mem_cons_of_mem _ ((sortKeys_perm l).mem_iff.mp hx)
    cases hpa : p a with
    | true =>
      rw [filter_insertKey_pos p a (sortKeys l) hpa
        (fun b hb hle => hcl a b (List.mem_cons_self _ _) (hsub b hb) hpa hle)]
      rw [ih (fun x y hx hy => hcl x y (List.mem_cons_of_mem _ hx)
        (List.mem_cons_of_mem _ hy))]
      simp [List.filter_cons, hpa]
    | false =>
      rw [filter_insertKey_neg p a (sortKeys l) hpa]
      rw [ih (fun x y hx hy => hcl x y (List.mem_cons_of_mem _ hx)
        (List.mem_cons_of_mem _ hy))]
      simp [List.filter_cons, hpa]

theorem map_lookupOr_keys (m : Combinations)
    (hnd : (m.map Prod.fst).Nodup) :
    (m.map Prod.fst).map (fun k => (k, lookupOr m k)) = m := by
  induction m with
  | nil => rfl
  | cons p m ih =>
    obtain ⟨k₀, v₀⟩ := p
    simp only [List.map_cons, List.nodup_cons] at hnd ⊢
    have h₀ : lookupOr ((k₀, v₀) :: m) k₀ = v₀ := by simp [lookupOr, objGet]
    have hcongr : (m.map Prod.fst).map (fun k => (k, lookupOr ((k₀, v₀) :: m) k)) =
        (m.map Prod.fst).map (fun k => (k, lookupOr m k)) := by
      apply List.map_congr_left
      intro k hk
      have hne : k₀ ≠ k := fun e => hnd.1 (e ▸ hk)
      simp [lookupOr, objGet, hne]
    rw [h₀, hcongr, ih hnd.2]

/-- C2: `orderCombinations` returns a mapping with exactly the same
key-to-counts entries as its input (a permutation of the association list),
enumerated sorted primarily by weekday position in `[Mon,Tue,Wed,Thu,Fri]`
ascending and secondarily by the parsed start hour ascending, with tied keys
(equal weekday rank and start hour) preserving their input order; and the
three example slots enumerate in the order the specification states. -/
theorem orderCombinations_spec :
    (∀ m : Combinations, (m.map Prod.fst).Nodup → (∀ p ∈ m, goodKey p.1) →
      (orderCombinations m).Perm m ∧
      (orderCombinations m).Pairwise (fun p q => specLe p.1 q.1) ∧
      (∀ r : Int × Int,
        ((orderCombinations m).map Prod.fst).filter
            (fun k => decide ((dayIdx k, startHour k) = r)) =
          (m.map Prod.fst).filter (fun k => decide ((dayIdx k, startHour k) = r)))) ∧
    (∀ c₁ c₂ c₃ : SlotCounts,
      orderCombinations
          [("Wed 9am - 10am", c₁), ("Mon 2pm - 4pm", c₂), ("Mon 10am - 12pm", c₃)] =
        [("Mon 10am - 12pm", c₃), ("Mon 2pm - 4pm", c₂), ("Wed 9am - 10am", c₁)]) := by
  constructor
  · intro m hnd hgood
    have hkeysP : ∀ x ∈ m.map Prod.fst, goodKey x := by
      intro x hx
      obtain ⟨p, hp, rfl⟩ := List.mem_map.mp hx
      exact hgood p hp
    have h2 : ∀ x y, goodKey x → goodKey y → keyLe x y = false → specLe y x := by
      intro x y hx hy hle
      rcases rank_lt_of_keyLe_false x y hx hy hle with h | ⟨e, h⟩
      · exact Or.inl h
      · exact Or.inr ⟨e, le_of_lt h⟩
    refine ⟨?_, ?_, ?_⟩
    · have h1 := (sortKeys_perm (m.map Prod.fst)).map (fun k => (k, lookupOr m k))
      rw [orderCombinations]
      refine h1.trans ?_
      rw [map_lookupOr_keys m hnd]
    · rw [orderCombinations, List.pairwise_map]
      exact pairwise_sortKeys specLe_trans
        (fun x y hx hy hle => (keyLe_iff_specLe x y hx hy).mp hle)
        h2 (m.map Prod.fst) hkeysP
    · intro r
      have hmf : (orderCombinations m).map Prod.fst = sortKeys (m.map Prod.fst) := by
        rw [orderCombinations, List.map_map]
        exact List.map_id _
      rw [hmf]
      apply filter_sortKeys
      intro a b ha hb hpa hle
      have hga := hkeysP a ha
      have hgb := hkeysP b hb
      rw [decide_eq_true_eq] at hpa
      rw [decide_eq_false_iff_not]
      intro he
      rw [← hpa] at he
      have hfst : dayIdx b = dayIdx a := congrArg Prod.fst he
      have hsnd : startHour b = startHour a := congrArg Prod.snd he
      rcases rank_lt_of_keyLe_false a b hga hgb hle with hlt | ⟨e, hlt⟩ <;> omega
  · intro c₁ c₂ c₃
    rfl

/-- Witness for C2 at the specification's three example slots with concrete
counts. -/
theorem orderCombinations_spec_witness :
    (([("Wed 9am - 10am", (⟨1, 0⟩ : SlotCounts)), ("Mon 2pm - 4pm", ⟨2, 0⟩),
        ("Mon 10am - 12pm", ⟨0, 3⟩)].map Prod.fst).Nodup ∧
      (∀ p ∈ [("Wed 9am - 10am", (⟨1, 0⟩ : SlotCounts)), ("Mon 2pm - 4pm", ⟨2, 0⟩),
        ("Mon 10am - 12pm", ⟨0, 3⟩)], goodKey p.1)) ∧
    (orderCombinations [("Wed 9am - 10am", ⟨1, 0⟩), ("Mon 2pm - 4pm", ⟨2, 0⟩),
        ("Mon 10am - 12pm", ⟨0, 3⟩)]).Perm
      [("Wed 9am - 10am", ⟨1, 0⟩), ("Mon 2pm - 4pm", ⟨2, 0⟩),
        ("Mon 10am - 12pm", ⟨0, 3⟩)] :=
  ⟨⟨by decide, by decide⟩,
    (orderCombinations_spec.1
      [("Wed 9am - 10am", ⟨1, 0⟩), ("Mon 2pm - 4pm", ⟨2, 0⟩),
        ("Mon 10am - 12pm", ⟨0, 3⟩)] (by decide) (by decide)).1⟩

/-- C10: in the comparator, a key with an unrecognized weekday token compares
strictly below every key with a (necessarily different) recognized weekday
(`indexOf` yields `-1`, below every recognized index); two keys with distinct
unrecognized weekdays compare equal; consequently the sorted enumeration never
places a recognized-weekday key before an unknown-weekday key, and a map whose
keys all have pairwise distinct unknown weekdays is enumerated in input order. -/
theorem cmpKeys_unknown_weekday :
    (∀ a b, keyDay a ∉ weekdaysOrder → keyDay b ∈ weekdaysOrder →
      ∃ v, cmpKeys a b = some v ∧ v < 0) ∧
    (∀ a b, keyDay a ∉ weekdaysOrder → keyDay b ∉ weekdaysOrder →
      keyDay a ≠ keyDay b → cmpKeys a b = some 0) ∧
    (∀ m : Combinations, (orderCombinations m).Pairwise
      (fun p q => keyDay p.1 ∈ weekdaysOrder → keyDay q.1 ∈ weekdaysOrder)) ∧
    (∀ m : Combinations, (m.map Prod.fst).Nodup →
      (∀ p ∈ m, keyDay p.1 ∉ weekdaysOrder) →
      (m.map Prod.fst).Pairwise (fun a b => keyDay a ≠ keyDay b) →
      orderCombinations m = m) := by
  have hone : ∀ a b, keyDay a ∉ weekdaysOrder → keyDay b ∈ weekdaysOrder →
      ∃ v, cmpKeys a b = some v ∧ v < 0 := by
    intro a b ha hb
    have hd : keyDay a ≠ keyDay b := fun e => ha (e ▸ hb)
    refine ⟨dayIdx a - dayIdx b, cmpKeys_of_day_ne a b hd, ?_⟩
    have h1 : dayIdx a = -1 := jsIndexOf_eq_neg_one _ _ ha
    have h2 : 0 ≤ dayIdx b := jsIndexOf_nonneg _ _ hb
    omega
  have htwo : ∀ a b, keyDay a ∉ weekdaysOrder → keyDay b ∉ weekdaysOrder →
      keyDay a ≠ keyDay b → cmpKeys a b = some 0 := by
    intro a b ha hb hd
    rw [cmpKeys_of_day_ne a b hd]
    have h1 : dayIdx a = -1 := jsIndexOf_eq_neg_one _ _ ha
    have h2 : dayIdx b = -1 := jsIndexOf_eq_neg_one _ _ hb
    rw [h1, h2]
    decide
  refine ⟨hone, htwo, ?_, ?_⟩
  · intro m
    rw [orderCombinations, List.pairwise_map]
    refine pairwise_sortKeys (P := fun _ => True)
      (fun x y z hxy hyz hx => hyz (hxy hx)) ?_ ?_ (m.map Prod.fst)
      (fun x _ => trivial)
    · intro x y _ _ hle hx
      by_contra hy
      obtain ⟨v, hc, hv⟩ := hone y x hy hx
      have hc' : cmpKeys x y = some (dayIdx x - dayIdx y) :=
        cmpKeys_of_day_ne x y (fun e => hy (e ▸ hx))
      rw [keyLe, hc'] at hle
      rw [cmpKeys_of_day_ne y x (fun e => hy (e ▸ hx))] at hc
      have h1 : dayIdx y = -1 := jsIndexOf_eq_neg_one _ _ hy
      have h2 : 0 ≤ dayIdx x := jsIndexOf_nonneg _ _ hx
      rw [decide_eq_true_eq] at hle
      omega
    · intro x y _ _ hle hy
      by_contra hx
      obtain ⟨v, hc, hv⟩ := hone x y hx hy
      rw [keyLe, hc] at hle
      rw [decide_eq_false_iff_not] at hle
      omega
  · intro m hnd hunk hdays
    have hsort : ∀ l : List String, (∀ x ∈ l, keyDay x ∉ weekdaysOrder) →
        l.Pairwise (fun a b => keyDay a ≠ keyDay b) → sortKeys l = l := by
      intro l
      induction l with
      | nil => intro _ _; rfl
      | cons a l ih =>
        intro hu hp
        rw [List.pairwise_cons] at hp
        show insertKey a (sortKeys l) = a :: l
        rw [ih (fun x hx => hu x (List.mem_cons_of_mem _ hx)) hp.2]
        cases l with
        | nil => rfl
        | cons b l' =>
          have hle : keyLe a b = true := by
            rw [keyLe, htwo a b (hu a (List.mem_cons_self _ _))
              (hu b (List.mem_cons_of_mem _ (List.mem_cons_self _ _)))
              (hp.1 b (List.mem_cons_self _ _))]
            rfl
          simp [insertKey, hle]
    rw [orderCombinations,
      hsort (m.map Prod.fst)
        (fun x hx => by
          obtain ⟨p, hp, rfl⟩ := List.mem_map.mp hx
          exact hunk p hp)
        hdays,
      map_lookupOr_keys m hnd]

/-- Witness for C10: unknown-vs-recognized, unknown-vs-unknown, and an
all-unknown map enumerated in input order. -/
theorem cmpKeys_unknown_weekday_witness :
    ((keyDay "Sun 9am - 10am" ∉ weekdaysOrder ∧
        keyDay "Mon 2pm - 4pm" ∈ weekdaysOrder) ∧
      (∃ v, cmpKeys "Sun 9am - 10am" "Mon 2pm - 4pm" = some v ∧ v < 0)) ∧
    cmpKeys "Sat 1am - 2am" "Sun 9am - 10am" = some 0 ∧
    orderCombinations [("Sun 9am - 10am", ⟨1, 0⟩), ("Sat 1am - 2am", ⟨0, 1⟩)] =
      [("Sun 9am - 10am", ⟨1, 0⟩), ("Sat 1am - 2am", ⟨0, 1⟩)] :=
  ⟨⟨⟨by decide, by decide⟩,
      cmpKeys_unknown_weekday.1 "Sun 9am - 10am" "Mon 2pm - 4pm"
        (by decide) (by decide)⟩,
    cmpKeys_unknown_weekday.2.1 "Sat 1am - 2am" "Sun 9am - 10am"
      (by decide) (by decide) (by decide),
    cmpKeys_unknown_weekday.2.2.2 [("Sun 9am - 10am", ⟨1, 0⟩), ("Sat 1am - 2am", ⟨0, 1⟩)]
      (by decide) (by decide) (by decide)⟩

/-- JS `Math.max(...values)` over a list of naturals: `none` models the
`-Infinity` returned when the spread is empty. -/
def mathMax (l : List Nat) : Option Nat :=
  l.foldl (fun acc x =>
    match acc with
    | none => some x
    | some a => some (Nat.max a x)) none

/-- Function `maxValues` (lines 105–111): the pair
`(Math.max(...inPersonValues), Math.max(...onlineValues))`. -/
def maxValues (schedule : Combinations) : Option Nat × Option Nat :=
  (mathMax (schedule.map (fun p => p.2.inPerson)),
    mathMax (schedule.map (fun p => p.2.online)))

theorem mathMax_aux : ∀ (l : List Nat) (a : Nat),
    l.foldl (fun acc x =>
      match acc with
      | none => some x
      | some a => some (Nat.max a x)) (some a) = some (l.foldl Nat.max a) := by
  intro l
  induction l with
  | nil => intro a; rfl
  | cons b l ih => intro a; exact ih (Nat.max a b)

theorem mathMax_eq_max? (l : List Nat) : mathMax l = l.max? := by
  cases l with
  | nil => rfl
  | cons a l => exact mathMax_aux l a

theorem mathMax_eq_some_of_ne_nil (l : List Nat) (h : l ≠ []) :
    ∃ a, mathMax l = some a ∧ (∀ b ∈ l, b ≤ a) ∧ a ∈ l := by
  cases he : mathMax l with
  | none =>
    rw [mathMax_eq_max?] at he
    exact absurd (List.max?_eq_none_iff.mp he) h
  | some a =>
    rw [mathMax_eq_max?] at he
    obtain ⟨hmem, hle⟩ := List.max?_eq_some_iff'.mp he
    exact ⟨a, rfl, hle, hmem⟩

/-- Counterexample to C3's empty-schedule clause: on a schedule with no slots,
`Math.max` of an empty spread is `-Infinity` (modelled `none`), not `0`. -/
theorem maxValues_empty_not_zero :
    maxValues [] ≠ ((some 0 : Option Nat), (some 0 : Option Nat)) := by
  decide

/-- Amended C3: `maxValues` returns the maximum in-person count and the
maximum online count over all slots whenever the schedule is nonempty (each
maximum is attained and bounds every slot), returns `(3, 2)` on the
specification's two-slot example, and returns `-Infinity` (modelled `none`,
not `0`) in both components on an empty schedule. -/
theorem maxValues_spec :
    (∀ s : Combinations, maxValues s =
      ((s.map (fun p => p.2.inPerson)).max?, (s.map (fun p => p.2.online)).max?)) ∧
    (∀ s : Combinations, s ≠ [] → ∃ a b, maxValues s = (some a, some b) ∧
      (∀ p ∈ s, p.2.inPerson ≤ a ∧ p.2.online ≤ b) ∧
      (∃ p ∈ s, p.2.inPerson = a) ∧ (∃ q ∈ s, q.2.online = b)) ∧
    (∀ k₁ k₂ : String,
      maxValues [(k₁, ⟨3, 1⟩), (k₂, ⟨1, 2⟩)] = (some 3, some 2)) ∧
    maxValues [] = (none, none) := by
  have hgen : ∀ s : Combinations, maxValues s =
      ((s.map (fun p => p.2.inPerson)).max?, (s.map (fun p => p.2.online)).max?) := by
    intro s
    rw [maxValues, mathMax_eq_max?, mathMax_eq_max?]
  refine ⟨hgen, ?_, fun k₁ k₂ => rfl, rfl⟩
  intro s hne
  have hne1 : s.map (fun p => p.2.inPerson) ≠ [] := by
    intro he
    exact hne (List.map_eq_nil_iff.mp he)
  have hne2 : s.map (fun p => p.2.online) ≠ [] := by
    intro he
    exact hne (List.map_eq_nil_iff.mp he)
  obtain ⟨a, ha, hbnd1, hm1⟩ := mathMax_eq_some_of_ne_nil _ hne1
  obtain ⟨b, hb, hbnd2, hm2⟩ := mathMax_eq_some_of_ne_nil _ hne2
  refine ⟨a, b, ?_, ?_, ?_, ?_⟩
  · rw [maxValues, ha, hb]
  · intro p hp
    exact ⟨hbnd1 _ (List.mem_map.mpr ⟨p, hp, rfl⟩),
      hbnd2 _ (List.mem_map.mpr ⟨p, hp, rfl⟩)⟩
  · obtain ⟨p, hp, he⟩ := List.mem_map.mp hm1
    exact ⟨p, hp, he⟩
  · obtain ⟨q, hq, he⟩ := List.mem_map.mp hm2
    exact ⟨q, hq, he⟩

/-- Witness for C3's amended nonempty clause at the two-slot example. -/
theorem maxValues_spec_witness :
    (([(("A" : String), (⟨3, 1⟩ : SlotCounts)), ("B", ⟨1, 2⟩)] : Combinations) ≠ []) ∧
      ∃ a b, maxValues [(("A" : String), (⟨3, 1⟩ : SlotCounts)), ("B", ⟨1, 2⟩)] =
        (some a, some b) ∧
        (∀ p ∈ ([(("A" : String), (⟨3, 1⟩ : SlotCounts)), ("B", ⟨1, 2⟩)] : Combinations),
          p.2.inPerson ≤ a ∧ p.2.online ≤ b) ∧
        (∃ p ∈ ([(("A" : String), (⟨3, 1⟩ : SlotCounts)), ("B", ⟨1, 2⟩)] : Combinations),
          p.2.inPerson = a) ∧
        (∃ q ∈ ([(("A" : String), (⟨3, 1⟩ : SlotCounts)), ("B", ⟨1, 2⟩)] : Combinations),
          q.2.online = b) :=
  ⟨by decide, maxValues_spec.2.1 [("A", ⟨3, 1⟩), ("B", ⟨1, 2⟩)] (by decide)⟩

/-- One iteration of the array-building loop of `updateWorksheet`
(lines 183–195): a slot key is pushed (with its type label and count) once for
a truthy in-person count and once for a truthy online count.  JS number
truthiness is `≠ 0` for the natural counts involved. -/
def buildStep (acc : List String × List String × List Nat) (p : String × SlotCounts) :
    List String × List String × List Nat :=
  let acc1 := if p.2.inPerson ≠ 0 then
      (acc.1 ++ [p.1], acc.2.1 ++ ["In-person"], acc.2.2 ++ [p.2.inPerson])
    else acc
  if p.2.online ≠ 0 then
    (acc1.1 ++ [p.1], acc1.2.1 ++ ["Online"], acc1.2.2 ++ [p.2.online])
  else acc1

/-- The `classes`, `types` and `counts` arrays built by `updateWorksheet` from
the schedule entries. -/
def buildArrays (schedule : Combinations) : List String × List String × List Nat :=
  schedule.foldl buildStep ([], [], [])

/-- The guard of `updateWorksheet` (lines 197–199): throw
`'Something went wrong!'` when the three array lengths disagree, otherwise
hand the arrays to the rendering code. -/
def updateWorksheetArrays (schedule : Combinations) :
    Except String (List String × List String × List Nat) :=
  if (buildArrays schedule).1.length ≠ (buildArrays schedule).2.1.length ∨
      (buildArrays schedule).1.length ≠ (buildArrays schedule).2.2.length ∨
      (buildArrays schedule).2.1.length ≠ (buildArrays schedule).2.2.length then
    Except.error "Something went wrong!"
  else
    Except.ok (buildArrays schedule)

theorem buildStep_lengths (acc : List String × List String × List Nat)
    (p : String × SlotCounts)
    (h1 : acc.1.length = acc.2.1.length) (h2 : acc.1.length = acc.2.2.length) :
    (buildStep acc p).1.length = (buildStep acc p).2.1.length ∧
      (buildStep acc p).1.length = (buildStep acc p).2.2.length := by
  rw [buildStep]
  by_cases hip : p.2.inPerson ≠ 0 <;> by_cases hon : p.2.online ≠ 0 <;>
    simp [hip, hon, List.length_append] <;> omega

theorem buildArrays_lengths_aux :
    ∀ (s : Combinations) (acc : List String × List String × List Nat),
      acc.1.length = acc.2.1.length → acc.1.length = acc.2.2.length →
      (s.foldl buildStep acc).1.length = (s.foldl buildStep acc).2.1.length ∧
        (s.foldl buildStep acc).1.length = (s.foldl buildStep acc).2.2.length := by
  intro s
  induction s with
  | nil => intro acc h1 h2; exact ⟨h1, h2⟩
  | cons p s ih =>
    intro acc h1 h2
    have h := buildStep_lengths acc p h1 h2
    exact ih (buildStep acc p) h.1 h.2

/-- C9: for every input schedule the three arrays `classes`, `types` and
`counts` built by `updateWorksheet` have equal length, so its internal
length-mismatch branch (`'Something went wrong!'`) is unreachable: the guard
always succeeds and returns the arrays. -/
theorem updateWorksheetArrays_ok :
    ∀ schedule : Combinations,
      (buildArrays schedule).1.length = (buildArrays schedule).2.1.length ∧
      (buildArrays schedule).1.length = (buildArrays schedule).2.2.length ∧
      updateWorksheetArrays schedule = Except.ok (buildArrays schedule) := by
  intro schedule
  have hf := buildArrays_lengths_aux schedule ([], [], []) rfl rfl
  have h1 : (buildArrays schedule).1.length = (buildArrays schedule).2.1.length := hf.1
  have h2 : (buildArrays schedule).1.length = (buildArrays schedule).2.2.length := hf.2
  have h3 : (buildArrays schedule).2.1.length = (buildArrays schedule).2.2.length := by
    omega
  have hcond : ¬ ((buildArrays schedule).1.length ≠ (buildArrays schedule).2.1.length ∨
      (buildArrays schedule).1.length ≠ (buildArrays schedule).2.2.length ∨
      (buildArrays schedule).2.1.length ≠ (buildArrays schedule).2.2.length) := by
    push_neg
    exact ⟨h1, h2, h3⟩
  refine ⟨h1, h2, ?_⟩
  rw [updateWorksheetArrays, if_neg hcond]

/-- The validation sequence of `main` (lines 364–383), modelled on the
workbook's worksheet-name list: the three checks run in order before
`addWorksheet` creates the destination sheet, and all subsequent writes target
only that new sheet.  The result pairs the raised error (if any) with the
final worksheet list. -/
def mainRun (sheets : List String) (course : String) (startRow endRow : Int) :
    Option String × List String :=
  if "TT" ∉ sheets then (some "Timetable not found", sheets)
  else if startRow > endRow then (some "Start row cannot be after End row", sheets)
  else if course ∈ sheets then (some ("Sheet " ++ course ++ " already exists"), sheets)
  else (none, sheets ++ [course])

/-- C8: `main` raises a fatal error when the source worksheet `TT` is missing,
when `startRow > endRow`, or when the destination name is already taken; in
every error case the workbook is left unchanged — in particular the
destination worksheet is never created, so there is no partial output. -/
theorem mainRun_validation :
    (∀ (sheets : List String) (course : String) (r₁ r₂ : Int), "TT" ∉ sheets →
      mainRun sheets course r₁ r₂ = (some "Timetable not found", sheets)) ∧
    (∀ (sheets : List String) (course : String) (r₁ r₂ : Int),
      "TT" ∈ sheets → r₁ > r₂ →
      mainRun sheets course r₁ r₂ = (some "Start row cannot be after End row", sheets)) ∧
    (∀ (sheets : List String) (course : String) (r₁ r₂ : Int),
      "TT" ∈ sheets → r₁ ≤ r₂ → course ∈ sheets →
      mainRun sheets course r₁ r₂ =
        (some ("Sheet " ++ course ++ " already exists"), sheets)) ∧
    (∀ (sheets : List String) (course : String) (r₁ r₂ : Int) (e : String)
      (st : List String), mainRun sheets course r₁ r₂ = (some e, st) →
      st = sheets ∧ (course ∉ sheets → course ∉ st)) := by
  refine ⟨?_, ?_, ?_, ?_⟩
  · intro sheets course r₁ r₂ h
    simp [mainRun, h]
  · intro sheets course r₁ r₂ h hlt
    simp [mainRun, h, hlt]
  · intro sheets course r₁ r₂ h hle hc
    have hnlt : ¬ (r₁ > r₂) := not_lt.mpr hle
    simp [mainRun, h, hnlt, hc]
  · intro sheets course r₁ r₂ e st h
    rw [mainRun] at h
    split_ifs at h with h1 h2 h3 <;>
      first
      | (injection h with ha hb
         exact Option.noConfusion ha)
      | (injection h with ha hb
         subst hb
         exact ⟨rfl, fun hn => hn⟩)

/-- Witness for C8: all three validation failures at concrete workbooks. -/
theorem mainRun_validation_witness :
    (("TT" ∉ ([] : List String)) ∧
      mainRun [] "COMP3900" 31 50 = (some "Timetable not found", [])) ∧
    (("TT" ∈ ["TT"]) ∧ ((51 : Int) > 50) ∧
      mainRun ["TT"] "COMP3900" 51 50 =
        (some "Start row cannot be after End row", ["TT"])) ∧
    (("TT" ∈ ["TT", "COMP3900"]) ∧ ((31 : Int) ≤ 50) ∧
      ("COMP3900" ∈ ["TT", "COMP3900"]) ∧
      mainRun ["TT", "COMP3900"] "COMP3900" 31 50 =
        (some ("Sheet " ++ "COMP3900" ++ " already exists"), ["TT", "COMP3900"])) :=
  ⟨⟨by decide, mainRun_validation.1 [] "COMP3900" 31 50 (by decide)⟩,
    ⟨by decide, by decide,
      mainRun_validation.2.1 ["TT"] "COMP3900" 51 50 (by decide) (by decide)⟩,
    ⟨by decide, by decide, by decide,
      mainRun_validation.2.2.1 ["TT", "COMP3900"] "COMP3900" 31 50
        (by decide) (by decide) (by decide)⟩⟩
